import Mathlib

namespace Diamonds

/-- One raw record of the input table: the four schema columns of the
diamonds sample, each possibly missing (a pandas NaN is modelled as none). -/
structure RawRow where
  carat : Option ℚ
  cut : Option String
  color : Option String
  price : Option ℚ
deriving DecidableEq, Repr

/-- A record in which every field is present, as produced by the dropna step. -/
structure CleanRow where
  carat : ℚ
  cut : String
  color : String
  price : ℚ
deriving DecidableEq, Repr

/-- Reinjection of a complete record into the raw schema. -/
def toRaw (r : CleanRow) : RawRow :=
  ⟨some r.carat, some r.cut, some r.color, some r.price⟩

/-- Keep the first occurrence of each row, in order: the semantics of
pandas drop_duplicates. The first argument accumulates rows already kept. -/
def dedupAux {α : Type} [DecidableEq α] : List α → List α → List α
  | _, [] => []
  | seen, r :: rs => if r ∈ seen then dedupAux seen rs else r :: dedupAux (r :: seen) rs

/-- df.drop_duplicates() of the script, line 47. -/
def dropDuplicates {α : Type} [DecidableEq α] (l : List α) : List α :=
  dedupAux [] l

/-- df.dropna() applied to one row: keep it exactly when every field is present. -/
def dropnaRow (r : RawRow) : Option CleanRow :=
  match r.carat, r.cut, r.color, r.price with
  | some a, some cu, some co, some p => some ⟨a, cu, co, p⟩
  | _, _, _, _ => none

/-- df.dropna() of the script, line 51. -/
def dropna (l : List RawRow) : List CleanRow :=
  l.filterMap dropnaRow

/-- Python str.strip: remove leading and trailing whitespace. -/
def pyStrip (s : String) : String :=
  String.mk (((s.data.dropWhile Char.isWhitespace).reverse.dropWhile Char.isWhitespace).reverse)

/-- One character of Python str.title: uppercase at a word start (previous
character not alphabetic), lowercase inside a word, other characters kept. -/
def titleChar (prevAlpha : Bool) (c : Char) : Char :=
  if c.isAlpha then (if prevAlpha then c.toLower else c.toUpper) else c

/-- Worker for Python str.title, tracking whether the previous character was
alphabetic. -/
def titleAux : Bool → List Char → List Char
  | _, [] => []
  | prev, c :: cs => titleChar prev c :: titleAux c.isAlpha cs

/-- Python str.title. -/
def pyTitle (s : String) : String :=
  String.mk (titleAux false s.data)

/-- The cut standardisation of line 60 of the script: strip, then title case. -/
def normalizeCut (s : String) : String :=
  pyTitle (pyStrip s)

/-- Apply the cut standardisation to one complete record. -/
def normalizeRow (r : CleanRow) : CleanRow :=
  ⟨r.carat, normalizeCut r.cut, r.color, r.price⟩

/-- The cleaning steps up to the two validity filters, in script order:
drop_duplicates (line 47), dropna (line 51), the price filter (line 55) and
the carat filter (line 56). -/
def cleanRows (t : List RawRow) : List CleanRow :=
  ((dropna (dropDuplicates t)).filter fun r => decide (0 < r.price)).filter
    fun r => decide (0 < r.carat)

/-- The full cleaner, lines 44 to 61 of the script: the duplicate, null and
validity filters followed by cut standardisation. -/
def clean (t : List RawRow) : List CleanRow :=
  (cleanRows t).map normalizeRow

/-- The two failure kinds named by the specification. -/
inductive PipelineError where
  | dataAccess
  | arithmetic
deriving DecidableEq, Repr

/-- Round a rational to the nearest integer, ties to even: the rounding used
by Python round and by pandas Series.round. -/
def roundHalfEven (q : ℚ) : ℤ :=
  let f : ℤ := ⌊q⌋
  if q - f < 1 / 2 then f
  else if 1 / 2 < q - f then f + 1
  else if f % 2 = 0 then f else f + 1

/-- Round to two decimal places, as in line 70 of the script. -/
def round2 (q : ℚ) : ℚ :=
  (roundHalfEven (q * 100) : ℚ) / 100

/-- The categorise function of lines 74 to 80 of the script. -/
def categorise (ppc : ℚ) : String :=
  if ppc < 2000 then "Budget"
  else if ppc < 5000 then "Mid-Range"
  else "Premium"

/-- pd.cut of lines 86 to 90 of the script: right-closed bins over the
breakpoints 0, 500, 1000, 2000, 5000; values outside every bin get no label. -/
def priceBand (p : ℚ) : Option String :=
  if 0 < p ∧ p ≤ 500 then some ("<$500")
  else if 500 < p ∧ p ≤ 1000 then some ("$500-$1k")
  else if 1000 < p ∧ p ≤ 2000 then some ("$1k-$2k")
  else if 2000 < p ∧ p ≤ 5000 then some ("$2k+")
  else none

/-- A fully transformed record: the four schema columns plus the three
derived columns of step 4 of the script. -/
structure Row where
  carat : ℚ
  cut : String
  color : String
  price : ℚ
  price_per_carat : ℚ
  value_category : String
  price_band : Option String
deriving DecidableEq, Repr

/-- The derived columns of lines 70 to 90 of the script for one record. -/
def transformRow (r : CleanRow) : Row :=
  let ppc : ℚ := round2 (r.price / r.carat)
  ⟨r.carat, r.cut, r.color, r.price, ppc, categorise ppc, priceBand r.price⟩

/-- Modelled from the spec: the transformer fails with ArithmeticError when a
remaining carat is zero (the division of line 70; the Python float semantics
of a zero divisor are outside this embedding, so the failure is modelled as
the spec states it). On rows with nonzero carat it computes the derived
columns of lines 70 to 90. -/
def transform : List CleanRow → Except PipelineError (List Row)
  | [] => Except.ok []
  | r :: rs =>
    if r.carat = 0 then Except.error PipelineError.arithmetic
    else
      match transform rs with
      | Except.ok l => Except.ok (transformRow r :: l)
      | Except.error e => Except.error e

/-- Modelled from the spec: pd.read_csv of line 24. The file system is an
optional table; a missing or unreadable file is none and makes the loader
fail with the DataAccessError of the spec, otherwise the parsed table is
returned. -/
def load (file : Option (List RawRow)) : Except PipelineError (List RawRow) :=
  match file with
  | none => Except.error PipelineError.dataAccess
  | some t => Except.ok t

/-- Modelled from the spec: df.to_csv of line 175. Writability of the
destination is a Boolean; an unwritable destination makes the exporter fail
with the DataAccessError of the spec, otherwise the rows are written in
order. -/
def exportTable (writable : Bool) (rows : List Row) : Except PipelineError (List Row) :=
  if writable then Except.ok rows else Except.error PipelineError.dataAccess

/-- How df.to_csv renders the price_band cell of one row: a missing band
(a pandas NaN) becomes the empty field. -/
def priceBandField (r : Row) : String :=
  match r.price_band with
  | some s => s
  | none => ""

theorem mem_of_mem_dedupAux {α : Type} [DecidableEq α] :
    ∀ (l seen : List α) (x : α), x ∈ dedupAux seen l → x ∈ l ∧ x ∉ seen := by
  intro l
  induction l with
  | nil => intro seen x hx; simp [dedupAux] at hx
  | cons r rs ih =>
    intro seen x hx
    simp only [dedupAux] at hx
    by_cases hr : r ∈ seen
    · rw [if_pos hr] at hx
      obtain ⟨h1, h2⟩ := ih seen x hx
      exact ⟨List.mem_cons_of_mem r h1, h2⟩
    · rw [if_neg hr] at hx
      rcases List.mem_cons.mp hx with h1 | h1
      · subst h1
        exact ⟨List.mem_cons_self x rs, hr⟩
      · obtain ⟨h1, h2⟩ := ih (r :: seen) x h1
        exact ⟨List.mem_cons_of_mem r h1, fun hs => h2 (List.mem_cons_of_mem r hs)⟩

theorem pairwise_dedupAux {α : Type} [DecidableEq α] :
    ∀ (l seen : List α), List.Pairwise (fun a b => a ≠ b) (dedupAux seen l) := by
  intro l
  induction l with
  | nil => intro seen; simp [dedupAux]
  | cons r rs ih =>
    intro seen
    simp only [dedupAux]
    by_cases hr : r ∈ seen
    · rw [if_pos hr]; exact ih seen
    · rw [if_neg hr]
      refine List.Pairwise.cons ?_ (ih (r :: seen))
      intro x hx he
      obtain ⟨-, h2⟩ := mem_of_mem_dedupAux rs (r :: seen) x hx
      subst he
      exact h2 (List.mem_cons_self r seen)

theorem dedupAux_eq_self {α : Type} [DecidableEq α] :
    ∀ (l seen : List α), List.Pairwise (fun a b => a ≠ b) l → (∀ x ∈ l, x ∉ seen) →
      dedupAux seen l = l := by
  intro l
  induction l with
  | nil => intro seen _ _; simp [dedupAux]
  | cons r rs ih =>
    intro seen hp hs
    obtain ⟨h1, h2⟩ := List.pairwise_cons.mp hp
    simp only [dedupAux]
    rw [if_neg (hs r (List.mem_cons_self r rs))]
    congr 1
    refine ih (r :: seen) h2 ?_
    intro x hx hmem
    rcases List.mem_cons.mp hmem with h3 | h3
    · exact h1 x hx h3.symm
    · exact hs x (List.mem_cons_of_mem r hx) h3

theorem dedupAux_length_le {α : Type} [DecidableEq α] :
    ∀ (l seen : List α), (dedupAux seen l).length ≤ l.length := by
  intro l
  induction l with
  | nil => intro seen; simp [dedupAux]
  | cons r rs ih =>
    intro seen
    simp only [dedupAux]
    by_cases hr : r ∈ seen
    · rw [if_pos hr]; exact (ih seen).trans (Nat.le_succ _)
    · rw [if_neg hr]
      simpa using Nat.succ_le_succ (ih (r :: seen))

theorem pairwise_dropDuplicates {α : Type} [DecidableEq α] (l : List α) :
    List.Pairwise (fun a b => a ≠ b) (dropDuplicates l) :=
  pairwise_dedupAux l []

theorem mem_of_mem_dropDuplicates {α : Type} [DecidableEq α] (l : List α) (x : α)
    (hx : x ∈ dropDuplicates l) : x ∈ l :=
  (mem_of_mem_dedupAux l [] x hx).1

theorem dropDuplicates_eq_self {α : Type} [DecidableEq α] {l : List α}
    (h : List.Pairwise (fun a b => a ≠ b) l) : dropDuplicates l = l :=
  dedupAux_eq_self l [] h (by simp)

theorem dropDuplicates_length_le {α : Type} [DecidableEq α] (l : List α) :
    (dropDuplicates l).length ≤ l.length :=
  dedupAux_length_le l []

theorem dropnaRow_toRaw (c : CleanRow) : dropnaRow (toRaw c) = some c := rfl

theorem dropnaRow_eq_some {r : RawRow} {c : CleanRow} :
    dropnaRow r = some c ↔ r = toRaw c := by
  obtain ⟨a, cu, co, p⟩ := r
  obtain ⟨a2, cu2, co2, p2⟩ := c
  cases a <;> cases cu <;> cases co <;> cases p <;> simp [dropnaRow, toRaw]

theorem mem_dropna {c : CleanRow} {l : List RawRow} :
    c ∈ dropna l ↔ toRaw c ∈ l := by
  simp [dropna, List.mem_filterMap, dropnaRow_eq_some]

theorem pairwise_dropna {l : List RawRow}
    (h : List.Pairwise (fun a b => a ≠ b) l) :
    List.Pairwise (fun a b => a ≠ b) (dropna l) := by
  induction l with
  | nil => simp [dropna]
  | cons a l ih =>
    obtain ⟨h1, h2⟩ := List.pairwise_cons.mp h
    simp only [dropna, List.filterMap_cons]
    cases hda : dropnaRow a with
    | none => exact ih h2
    | some c =>
      refine List.Pairwise.cons ?_ (ih h2)
      intro x hx he
      have hxl : toRaw x ∈ l := mem_dropna.mp hx
      have ha : a = toRaw c := dropnaRow_eq_some.mp hda
      exact h1 (toRaw x) hxl (by rw [ha, he])

theorem map_id_of_mem {α : Type} {f : α → α} :
    ∀ {l : List α}, (∀ x ∈ l, f x = x) → l.map f = l := by
  intro l
  induction l with
  | nil => intro _; rfl
  | cons a l ih =>
    intro h
    simp only [List.map_cons]
    rw [h a (List.mem_cons_self a l), ih fun x hx => h x (List.mem_cons_of_mem a hx)]

theorem normalizeRow_eq_self {r : CleanRow} (h : normalizeCut r.cut = r.cut) :
    normalizeRow r = r := by
  obtain ⟨a, cu, co, p⟩ := r
  simpa [normalizeRow] using h

theorem toRaw_injective {a b : CleanRow} (h : toRaw a = toRaw b) : a = b := by
  obtain ⟨a1, a2, a3, a4⟩ := a
  obtain ⟨b1, b2, b3, b4⟩ := b
  simpa [toRaw] using h

theorem mem_cleanRows {c : CleanRow} {t : List RawRow} :
    c ∈ cleanRows t ↔ toRaw c ∈ dropDuplicates t ∧ 0 < c.carat ∧ 0 < c.price := by
  simp [cleanRows, List.mem_filter, mem_dropna, and_assoc]

theorem mem_clean_pos {r : CleanRow} {t : List RawRow} (h : r ∈ clean t) :
    0 < r.carat ∧ 0 < r.price := by
  simp only [clean, List.mem_map] at h
  obtain ⟨c, hc, rfl⟩ := h
  exact (mem_cleanRows.mp hc).2

theorem mem_clean_raw {r : CleanRow} {t : List RawRow} (h : r ∈ clean t) :
    ∃ c : CleanRow, toRaw c ∈ t ∧ r = normalizeRow c := by
  simp only [clean, List.mem_map] at h
  obtain ⟨c, hc, rfl⟩ := h
  exact ⟨c, mem_of_mem_dropDuplicates _ _ (mem_cleanRows.mp hc).1, rfl⟩

theorem pairwise_cleanRows (t : List RawRow) :
    List.Pairwise (fun a b => a ≠ b) (cleanRows t) := by
  have h2 := pairwise_dropna (pairwise_dropDuplicates t)
  exact List.Pairwise.sublist ((List.filter_sublist _).trans (List.filter_sublist _)) h2

theorem dropna_map_toRaw (y : List CleanRow) : dropna (y.map toRaw) = y := by
  induction y with
  | nil => rfl
  | cons c y ih =>
    have ih2 : List.filterMap dropnaRow (List.map toRaw y) = y := ih
    simp [dropna, List.map_cons, List.filterMap_cons, dropnaRow_toRaw, ih2]

theorem clean_map_toRaw_eq (y : List CleanRow)
    (hpw : List.Pairwise (fun a b => a ≠ b) y)
    (hpos : ∀ c ∈ y, 0 < c.carat ∧ 0 < c.price)
    (hcut : ∀ c ∈ y, normalizeCut c.cut = c.cut) :
    clean (y.map toRaw) = y := by
  have h1 : dropDuplicates (y.map toRaw) = y.map toRaw := by
    refine dropDuplicates_eq_self (List.pairwise_map.mpr ?_)
    exact hpw.imp fun hab he => hab (toRaw_injective he)
  have h2 : dropna (y.map toRaw) = y := dropna_map_toRaw y
  have h3 : (y.filter fun r => decide (0 < r.price)) = y :=
    List.filter_eq_self.mpr fun c hc => by simpa using (hpos c hc).2
  have h4 : (y.filter fun r => decide (0 < r.carat)) = y :=
    List.filter_eq_self.mpr fun c hc => by simpa using (hpos c hc).1
  have h5 : y.map normalizeRow = y :=
    map_id_of_mem fun c hc => normalizeRow_eq_self (hcut c hc)
  show (cleanRows (y.map toRaw)).map normalizeRow = y
  rw [cleanRows, h1, h2, h3, h4, h5]

theorem cleanRows_cut_fixed {t : List RawRow}
    (h : ∀ r ∈ t, Option.map normalizeCut r.cut = r.cut) :
    ∀ c ∈ cleanRows t, normalizeCut c.cut = c.cut := by
  intro c hc
  have hct : toRaw c ∈ t :=
    mem_of_mem_dropDuplicates _ _ (mem_cleanRows.mp hc).1
  simpa [toRaw] using h (toRaw c) hct

theorem transform_eq_ok :
    ∀ (rows : List CleanRow) (out : List Row), transform rows = Except.ok out →
      out = rows.map transformRow := by
  intro rows
  induction rows with
  | nil =>
    intro out h
    simp only [transform] at h
    injection h with h
    subst h
    rfl
  | cons r rs ih =>
    intro out h
    simp only [transform] at h
    by_cases hz : r.carat = 0
    · rw [if_pos hz] at h
      exact Except.noConfusion h
    · rw [if_neg hz] at h
      cases htr : transform rs with
      | error e =>
        simp only [htr] at h
        exact Except.noConfusion h
      | ok l =>
        simp only [htr] at h
        injection h with h
        subst h
        rw [List.map_cons, ih l htr]

theorem transform_ok_of_ne :
    ∀ (rows : List CleanRow), (∀ r ∈ rows, r.carat ≠ 0) →
      transform rows = Except.ok (rows.map transformRow) := by
  intro rows
  induction rows with
  | nil => intro _; rfl
  | cons r rs ih =>
    intro h
    have hz : r.carat ≠ 0 := h r (List.mem_cons_self r rs)
    have ht := ih fun x hx => h x (List.mem_cons_of_mem r hx)
    simp only [transform]
    rw [if_neg hz, ht]
    rfl

theorem transform_error_of_zero :
    ∀ (rows : List CleanRow), (∃ r ∈ rows, r.carat = 0) →
      transform rows = Except.error PipelineError.arithmetic := by
  intro rows
  induction rows with
  | nil => intro h; simp at h
  | cons r rs ih =>
    intro h
    by_cases hz : r.carat = 0
    · simp only [transform]
      rw [if_pos hz]
    · obtain ⟨x, hx, hx0⟩ := h
      rcases List.mem_cons.mp hx with h1 | h1
      · subst h1
        exact absurd hx0 hz
      · have ht := ih ⟨x, h1, hx0⟩
        simp only [transform]
        rw [if_neg hz, ht]

theorem mem_transform_out {rows : List CleanRow} {out : List Row}
    (h : transform rows = Except.ok out) {r : Row} (hr : r ∈ out) :
    ∃ c ∈ rows, r = transformRow c := by
  have he := transform_eq_ok rows out h
  subst he
  obtain ⟨c, hc, hcr⟩ := List.mem_map.mp hr
  exact ⟨c, hc, hcr.symm⟩

/-- C4: value_category is a function of price_per_carat with inclusive-lower,
exclusive-upper boundaries: below 2000 it is Budget, from 2000 up to but not
including 5000 it is Mid-Range, from 5000 on it is Premium; exactly 2000 is
Mid-Range, 4999.99 is Mid-Range, exactly 5000 is Premium; and every
transformed row carries categorise of its own price_per_carat. -/
theorem categorise_boundaries (ppc : ℚ) (rows : List CleanRow) (out : List Row) :
    (ppc < 2000 → categorise ppc = "Budget") ∧
    (2000 ≤ ppc → ppc < 5000 → categorise ppc = "Mid-Range") ∧
    (5000 ≤ ppc → categorise ppc = "Premium") ∧
    categorise 2000 = "Mid-Range" ∧
    categorise (499999 / 100) = "Mid-Range" ∧
    categorise 5000 = "Premium" ∧
    (transform rows = Except.ok out →
      ∀ r ∈ out, r.value_category = categorise r.price_per_carat) := by
  refine ⟨?_, ?_, ?_, by decide, by norm_num [categorise], by decide, ?_⟩
  · intro h
    simp [categorise, h]
  · intro h1 h2
    simp [categorise, not_lt.mpr h1, h2]
  · intro h
    have h1 : ¬ppc < 2000 := not_lt.mpr (le_trans (by norm_num) h)
    simp [categorise, h1, not_lt.mpr h]
  · intro h r hr
    obtain ⟨c, -, rfl⟩ := mem_transform_out h hr
    rfl

/-- C4 witness: the first boundary case evaluated at 1999. -/
theorem categorise_boundaries_witness : categorise 1999 = "Budget" :=
  (categorise_boundaries 1999 [] []).1 (by norm_num)

/-- C5: price_band maps price through the right-closed intervals over the
breakpoints 0, 500, 1000, 2000, 5000; a price of exactly 0 or above 5000 gets
no label; and every transformed row carries priceBand of its own price. -/
theorem priceBand_intervals (p : ℚ) (rows : List CleanRow) (out : List Row) :
    (0 < p → p ≤ 500 → priceBand p = some ("<$500")) ∧
    (500 < p → p ≤ 1000 → priceBand p = some ("$500-$1k")) ∧
    (1000 < p → p ≤ 2000 → priceBand p = some ("$1k-$2k")) ∧
    (2000 < p → p ≤ 5000 → priceBand p = some ("$2k+")) ∧
    (p = 0 → priceBand p = none) ∧
    (5000 < p → priceBand p = none) ∧
    (transform rows = Except.ok out → ∀ r ∈ out, r.price_band = priceBand r.price) := by
  refine ⟨?_, ?_, ?_, ?_, ?_, ?_, ?_⟩
  · intro h1 h2
    simp [priceBand, h1, h2]
  · intro h1 h2
    have k1 : ¬p ≤ 500 := not_le.mpr (by linarith)
    simp [priceBand, k1, h1, h2]
  · intro h1 h2
    have k1 : ¬p ≤ 500 := not_le.mpr (by linarith)
    have k2 : ¬p ≤ 1000 := not_le.mpr (by linarith)
    simp [priceBand, k1, k2, h1, h2]
  · intro h1 h2
    have k1 : ¬p ≤ 500 := not_le.mpr (by linarith)
    have k2 : ¬p ≤ 1000 := not_le.mpr (by linarith)
    have k3 : ¬p ≤ 2000 := not_le.mpr (by linarith)
    simp [priceBand, k1, k2, k3, h1, h2]
  · intro h
    subst h
    norm_num [priceBand]
  · intro h
    have k1 : ¬p ≤ 500 := not_le.mpr (by linarith)
    have k2 : ¬p ≤ 1000 := not_le.mpr (by linarith)
    have k3 : ¬p ≤ 2000 := not_le.mpr (by linarith)
    have k4 : ¬p ≤ 5000 := not_le.mpr (by linarith)
    simp [priceBand, k1, k2, k3, k4]
  · intro h r hr
    obtain ⟨c, -, rfl⟩ := mem_transform_out h hr
    rfl

/-- C5 witness: the first interval evaluated at 300. -/
theorem priceBand_intervals_witness : priceBand 300 = some ("<$500") :=
  (priceBand_intervals 300 [] []).1 (by norm_num) (by norm_num)

/-- C6: the transformer fails with the arithmetic error whenever some row has
carat zero, and on the output of the cleaner, whose rows all have positive
carat, the transformer always succeeds, so the error path is unreachable. -/
theorem transform_arithmetic_error (rows : List CleanRow) (t : List RawRow) :
    ((∃ r ∈ rows, r.carat = 0) → transform rows = Except.error PipelineError.arithmetic) ∧
    transform (clean t) = Except.ok ((clean t).map transformRow) :=
  ⟨transform_error_of_zero rows,
   transform_ok_of_ne _ fun _ hr => (mem_clean_pos hr).1.ne'⟩

/-- C6 witness: a zero-carat row makes the transformer fail. -/
theorem transform_arithmetic_error_witness :
    transform [⟨0, "Good", "F", 500⟩] = Except.error PipelineError.arithmetic :=
  (transform_arithmetic_error [⟨0, "Good", "F", 500⟩] []).1 (by decide)

/-- C7: the loader fails with the data-access error on a missing or unreadable
file and returns the table otherwise; the exporter fails with the data-access
error on an unwritable destination and writes the rows in order otherwise. -/
theorem load_export_dataAccess (t : List RawRow) (rows : List Row) :
    load none = Except.error PipelineError.dataAccess ∧
    load (some t) = Except.ok t ∧
    exportTable false rows = Except.error PipelineError.dataAccess ∧
    exportTable true rows = Except.ok rows :=
  ⟨rfl, rfl, rfl, rfl⟩

/-- C8: every row of a successful transformer output has price_per_carat equal
to its price divided by its carat, rounded to two decimal places. -/
theorem price_per_carat_rounded (rows : List CleanRow) (out : List Row)
    (h : transform rows = Except.ok out) :
    ∀ r ∈ out, r.price_per_carat = round2 (r.price / r.carat) := by
  intro r hr
  obtain ⟨c, -, rfl⟩ := mem_transform_out h hr
  rfl

/-- C8 witness: the rounding relation evaluated on one transformed row. -/
theorem price_per_carat_rounded_witness :
    (transformRow ⟨1, "Ideal", "E", 3000⟩).price_per_carat =
      round2 ((transformRow ⟨1, "Ideal", "E", 3000⟩).price /
        (transformRow ⟨1, "Ideal", "E", 3000⟩).carat) :=
  price_per_carat_rounded [⟨1, "Ideal", "E", 3000⟩]
    [transformRow ⟨1, "Ideal", "E", 3000⟩] rfl
    (transformRow ⟨1, "Ideal", "E", 3000⟩) (List.mem_singleton.mpr rfl)

/-- C9: every row surviving the cleaner has positive carat and positive price,
and the invariant persists through the transformer and the exporter, which
keep the carat and price of each row unchanged. -/
theorem surviving_rows_positive (t : List RawRow) :
    (∀ r ∈ clean t, 0 < r.carat ∧ 0 < r.price) ∧
    (∀ out, transform (clean t) = Except.ok out →
      ∀ r ∈ out, 0 < r.carat ∧ 0 < r.price) ∧
    (∀ out, transform (clean t) = Except.ok out →
      ∀ exported, exportTable true out = Except.ok exported →
        ∀ r ∈ exported, 0 < r.carat ∧ 0 < r.price) := by
  refine ⟨fun r hr => mem_clean_pos hr, ?_, ?_⟩
  · intro out h r hr
    obtain ⟨c, hc, rfl⟩ := mem_transform_out h hr
    exact mem_clean_pos hc
  · intro out h exported hexp r hr
    have he : out = exported := by simpa [exportTable] using hexp
    subst he
    obtain ⟨c, hc, rfl⟩ := mem_transform_out h hr
    exact mem_clean_pos hc

/-- C9 witness: positivity of the single surviving row of a one-row table. -/
theorem surviving_rows_positive_witness :
    0 < (⟨1, "Ideal", "E", 3000⟩ : CleanRow).carat ∧
      0 < (⟨1, "Ideal", "E", 3000⟩ : CleanRow).price :=
  (surviving_rows_positive [⟨some 1, some ("Ideal"), some ("E"), some 3000⟩]).1
    ⟨1, "Ideal", "E", 3000⟩ (by decide)

/-- C1 counterexample: on the spec example the cleaner leaves two rows, not
exactly one: the whitespace variant of Ideal is not deduplicated because
drop_duplicates runs before the cut standardisation. -/
theorem clean_example_not_single_row :
    (clean [⟨some 1, some (" ideal "), some ("E"), some 3000⟩,
            ⟨some 1, some ("Ideal"), some ("E"), some 3000⟩,
            ⟨some 0, some ("Good"), some ("F"), some 500⟩]).length ≠ 1 := by decide

/-- C1 (amended): cleaning the three-row example leaves exactly two rows, not
one, because deduplication runs before cut standardisation; both surviving
rows have cut Ideal, and after the transformer both have price_per_carat 3000,
value_category Mid-Range and the price band of the 2k bucket. -/
theorem clean_transform_example_two_rows :
    clean [⟨some 1, some (" ideal "), some ("E"), some 3000⟩,
           ⟨some 1, some ("Ideal"), some ("E"), some 3000⟩,
           ⟨some 0, some ("Good"), some ("F"), some 500⟩] =
      [⟨1, "Ideal", "E", 3000⟩, ⟨1, "Ideal", "E", 3000⟩] ∧
    transform (clean [⟨some 1, some (" ideal "), some ("E"), some 3000⟩,
           ⟨some 1, some ("Ideal"), some ("E"), some 3000⟩,
           ⟨some 0, some ("Good"), some ("F"), some 500⟩]) =
      Except.ok [⟨1, "Ideal", "E", 3000, 3000, "Mid-Range", some ("$2k+")⟩,
                 ⟨1, "Ideal", "E", 3000, 3000, "Mid-Range", some ("$2k+")⟩] := by
  have h1 : clean [⟨some 1, some (" ideal "), some ("E"), some 3000⟩,
      ⟨some 1, some ("Ideal"), some ("E"), some 3000⟩,
      ⟨some 0, some ("Good"), some ("F"), some 500⟩] =
      [⟨1, "Ideal", "E", 3000⟩, ⟨1, "Ideal", "E", 3000⟩] := by decide
  have hT : transformRow ⟨1, "Ideal", "E", 3000⟩ =
      ⟨1, "Ideal", "E", 3000, 3000, "Mid-Range", some ("$2k+")⟩ := by
    norm_num [transformRow, round2, roundHalfEven, categorise, priceBand]
  refine ⟨h1, ?_⟩
  rw [h1, transform_ok_of_ne _ (by decide), List.map_cons, List.map_cons,
    List.map_nil, hT]

/-- C2 counterexample: the cleaner is not idempotent: on a table whose two
rows differ only by whitespace in cut, one cleaning pass keeps both rows and
standardises them into equal rows, and a second pass then drops one of them. -/
theorem clean_idempotent_counterexample :
    clean (List.map toRaw (clean
      [⟨some 1, some (" ideal "), some ("E"), some 3000⟩,
       ⟨some 1, some ("Ideal"), some ("E"), some 3000⟩])) ≠
      clean [⟨some 1, some (" ideal "), some ("E"), some 3000⟩,
             ⟨some 1, some ("Ideal"), some ("E"), some 3000⟩] := by decide

/-- C2 (amended): on every table whose cut values are already in standardised
form, the cleaner applied to its own output returns it unchanged; in general a
second pass can drop rows that the standardisation made into duplicates. -/
theorem clean_idempotent_on_normalized_cut (t : List RawRow)
    (h : ∀ r ∈ t, Option.map normalizeCut r.cut = r.cut) :
    clean (List.map toRaw (clean t)) = clean t := by
  have hfix : ∀ c ∈ cleanRows t, normalizeCut c.cut = c.cut := cleanRows_cut_fixed h
  have hclean_eq : clean t = cleanRows t := by
    show (cleanRows t).map normalizeRow = cleanRows t
    exact map_id_of_mem fun c hc => normalizeRow_eq_self (hfix c hc)
  rw [hclean_eq]
  exact clean_map_toRaw_eq (cleanRows t) (pairwise_cleanRows t)
    (fun c hc => (mem_cleanRows.mp hc).2) hfix

/-- C2 witness: idempotence on a one-row table with standardised cut. -/
theorem clean_idempotent_on_normalized_cut_witness :
    clean (List.map toRaw (clean [⟨some 1, some ("Ideal"), some ("E"), some 3000⟩])) =
      clean [⟨some 1, some ("Ideal"), some ("E"), some 3000⟩] :=
  clean_idempotent_on_normalized_cut [⟨some 1, some ("Ideal"), some ("E"), some 3000⟩]
    (by decide)

/-- C3 counterexample: the cleaned output can contain two exactly equal rows:
cut standardisation runs after deduplication and can map distinct kept rows to
the same row. -/
theorem clean_output_contains_duplicates :
    ¬ List.Pairwise (fun a b => a ≠ b)
      (clean [⟨some 1, some (" ideal "), some ("E"), some 3000⟩,
              ⟨some 1, some ("Ideal"), some ("E"), some 3000⟩]) := by decide

/-- C3 (amended): the row count of the cleaner output never exceeds the input
row count, and the output of the deduplication step contains no two equal
rows; exact duplicates can reappear in the final output only through the later
cut standardisation. -/
theorem clean_length_le_and_dedup_pairwise (t : List RawRow) :
    (clean t).length ≤ t.length ∧
    List.Pairwise (fun a b => a ≠ b) (dropDuplicates t) := by
  constructor
  · have h2 : (cleanRows t).length ≤ (dropna (dropDuplicates t)).length :=
      (List.length_filter_le _ _).trans (List.length_filter_le _ _)
    have h3 : (dropna (dropDuplicates t)).length ≤ (dropDuplicates t).length :=
      List.length_filterMap_le _ _
    have h4 := dropDuplicates_length_le t
    rw [clean, List.length_map]
    exact h2.trans (h3.trans h4)
  · exact pairwise_dropDuplicates t

/-- C10: a complete row with positive carat and price above 5000 survives
cleaning unchanged apart from cut standardisation, its transformed row has no
price_band label, that band is rendered as an empty field on export, and the
exporter writes the row; the no-missing-fields guarantee of cleaning does not
extend to the derived price_band column. -/
theorem high_price_row_unlabeled_band (a p : ℚ) (cu co : String)
    (ha : 0 < a) (hp : 5000 < p) :
    clean [⟨some a, some cu, some co, some p⟩] = [⟨a, normalizeCut cu, co, p⟩] ∧
    transform [⟨a, normalizeCut cu, co, p⟩] =
      Except.ok [transformRow ⟨a, normalizeCut cu, co, p⟩] ∧
    (transformRow ⟨a, normalizeCut cu, co, p⟩).price_band = none ∧
    priceBandField (transformRow ⟨a, normalizeCut cu, co, p⟩) = "" ∧
    exportTable true [transformRow ⟨a, normalizeCut cu, co, p⟩] =
      Except.ok [transformRow ⟨a, normalizeCut cu, co, p⟩] := by
  have h0 : (0 : ℚ) < p := lt_trans (by norm_num) hp
  have hband : priceBand p = none := by
    have k1 : ¬p ≤ 500 := not_le.mpr (by linarith)
    have k2 : ¬p ≤ 1000 := not_le.mpr (by linarith)
    have k3 : ¬p ≤ 2000 := not_le.mpr (by linarith)
    have k4 : ¬p ≤ 5000 := not_le.mpr hp
    simp [priceBand, k1, k2, k3, k4]
  have hb2 : (transformRow ⟨a, normalizeCut cu, co, p⟩).price_band = none := hband
  refine ⟨?_, ?_, hb2, ?_, rfl⟩
  · have hc : cleanRows [⟨some a, some cu, some co, some p⟩] = [⟨a, cu, co, p⟩] := by
      simp [cleanRows, dropDuplicates, dedupAux, dropna, dropnaRow,
        List.filterMap_cons, List.filter_cons, h0, ha]
    show (cleanRows [⟨some a, some cu, some co, some p⟩]).map normalizeRow = _
    rw [hc]
    rfl
  · refine transform_ok_of_ne _ ?_
    intro r hr
    rw [List.mem_singleton] at hr
    subst hr
    exact ha.ne'
  · simp [priceBandField, hb2]

/-- C10 witness: the transformed row of a price 6000 record has no band. -/
theorem high_price_row_unlabeled_band_witness :
    (transformRow ⟨1, normalizeCut ("Ideal"), "E", 6000⟩).price_band = none :=
  (high_price_row_unlabeled_band 1 6000 ("Ideal") ("E") (by norm_num) (by norm_num)).2.2.1

end Diamonds
